import Mathlib

/-!
Shallow embedding of `src/algoritmos_avancados.c` (Detective Quest, richest
variant: map exploration + clue BST + clue-to-suspect hash + final verdict).

C strings are modelled as Lean strings; byte-wise `strcmp` order coincides
with code-point lexicographic order because UTF-8 encoding is
order-preserving, and byte-wise equality coincides with string equality.
`NULL` string arguments are modelled as `Option.none` where the C code
distinguishes `NULL` from a valid string.  Allocation failures are assumed
not to happen (every `malloc` in the source merely reports and
returns/breaks on failure).  The fixed 128-byte input buffers are modelled
as unbounded strings; no input in any claim approaches the 127-byte
truncation limit.
-/

namespace DetectiveQuest

/-! ## C character and string primitives -/

/-- `tolower` from ctype.h in the C locale: only ASCII `A`..`Z` change. -/
def c_tolower (c : Char) : Char :=
  if 65 ≤ c.toNat ∧ c.toNat ≤ 90 then Char.ofNat (c.toNat + 32) else c

/-- `str_lower` (lines 70-72): lowercases every character of the string. -/
def str_lower (s : String) : String :=
  ⟨s.data.map c_tolower⟩

/-- `isspace` from ctype.h in the C locale. -/
def c_isspace (c : Char) : Bool :=
  c.toNat = 32 ∨ (9 ≤ c.toNat ∧ c.toNat ≤ 13)

/-- Three-way character comparison by code point.  On UTF-8 data this is
the order `strcmp` induces byte-wise. -/
def charCmp (x y : Char) : Ordering :=
  if x.toNat < y.toNat then .lt else if y.toNat < x.toNat then .gt else .eq

/-- `strcmp` (sign only) on the underlying character lists: the first
difference decides, and a strict prefix is smaller. -/
def strcmpL : List Char → List Char → Ordering
  | [], [] => .eq
  | [], _ :: _ => .lt
  | _ :: _, [] => .gt
  | x :: xs, y :: ys =>
    match charCmp x y with
    | .eq => strcmpL xs ys
    | o => o

/-- `strcmp` (sign only) on Lean strings. -/
def strcmp (a b : String) : Ordering :=
  strcmpL a.data b.data

theorem charCmp_self (x : Char) : charCmp x x = .eq := by
  simp [charCmp]

theorem charCmp_lt_iff {x y : Char} : charCmp x y = .lt ↔ x.toNat < y.toNat := by
  unfold charCmp
  split_ifs with h1 h2 <;> simp <;> omega

theorem charCmp_gt_iff {x y : Char} : charCmp x y = .gt ↔ charCmp y x = .lt := by
  rw [charCmp_lt_iff]
  unfold charCmp
  split_ifs with h1 h2 <;> simp <;> omega

theorem charCmp_eq_nat_iff {x y : Char} : charCmp x y = .eq ↔ x.toNat = y.toNat := by
  unfold charCmp
  split_ifs with h1 h2 <;> simp <;> omega

theorem charCmp_eq_iff {x y : Char} : charCmp x y = .eq ↔ x = y := by
  rw [charCmp_eq_nat_iff]
  constructor
  · intro h
    calc x = Char.ofNat x.toNat := (Char.ofNat_toNat x).symm
    _ = Char.ofNat y.toNat := by rw [h]
    _ = y := Char.ofNat_toNat y
  · rintro rfl; rfl

theorem strcmpL_self (a : List Char) : strcmpL a a = .eq := by
  induction a with
  | nil => rfl
  | cons x xs ih => simp [strcmpL, charCmp_self, ih]

theorem strcmpL_eq_iff : ∀ {a b : List Char}, strcmpL a b = .eq ↔ a = b := by
  intro a
  induction a with
  | nil => intro b; cases b <;> simp [strcmpL]
  | cons x xs ih =>
    intro b
    cases b with
    | nil => simp [strcmpL]
    | cons y ys =>
      simp only [strcmpL]
      cases hxy : charCmp x y with
      | lt =>
        have hne : x ≠ y := by
          rintro rfl; rw [charCmp_self] at hxy; exact absurd hxy (by decide)
        simp [hne]
      | gt =>
        have hne : x ≠ y := by
          rintro rfl; rw [charCmp_self] at hxy; exact absurd hxy (by decide)
        simp [hne]
      | eq =>
        have hx : x = y := charCmp_eq_iff.mp hxy
        subst hx
        simp [ih]

theorem strcmpL_lt_trans :
    ∀ {a b c : List Char}, strcmpL a b = .lt → strcmpL b c = .lt → strcmpL a c = .lt := by
  intro a
  induction a with
  | nil =>
    intro b c hab hbc
    cases b with
    | nil => simp [strcmpL] at hab
    | cons y ys =>
      cases c with
      | nil => simp [strcmpL] at hbc
      | cons z zs => simp [strcmpL]
  | cons x xs ih =>
    intro b c hab hbc
    cases b with
    | nil => simp [strcmpL] at hab
    | cons y ys =>
      cases c with
      | nil => simp [strcmpL] at hbc
      | cons z zs =>
        simp only [strcmpL] at hab hbc ⊢
        cases hxy : charCmp x y with
        | gt => rw [hxy] at hab; exact Ordering.noConfusion hab
        | lt =>
          rw [hxy] at hab
          cases hyz : charCmp y z with
          | gt => rw [hyz] at hbc; exact Ordering.noConfusion hbc
          | lt =>
            have hxz : charCmp x z = .lt := by
              rw [charCmp_lt_iff] at hxy hyz ⊢; omega
            rw [hxz]
          | eq =>
            have hxz : charCmp x z = .lt := by
              rw [charCmp_lt_iff] at hxy ⊢
              rw [charCmp_eq_nat_iff] at hyz
              omega
            rw [hxz]
        | eq =>
          rw [hxy] at hab
          cases hyz : charCmp y z with
          | gt => rw [hyz] at hbc; exact Ordering.noConfusion hbc
          | lt =>
            have hxz : charCmp x z = .lt := by
              rw [charCmp_eq_nat_iff] at hxy
              rw [charCmp_lt_iff] at hyz ⊢
              omega
            rw [hxz]
          | eq =>
            rw [hyz] at hbc
            have hxz : charCmp x z = .eq := by
              rw [charCmp_eq_nat_iff] at hxy hyz ⊢; omega
            rw [hxz]
            exact ih hab hbc

theorem strcmpL_gt_iff : ∀ {a b : List Char}, strcmpL a b = .gt ↔ strcmpL b a = .lt := by
  intro a
  induction a with
  | nil => intro b; cases b <;> simp [strcmpL]
  | cons x xs ih =>
    intro b
    cases b with
    | nil => simp [strcmpL]
    | cons y ys =>
      simp only [strcmpL]
      cases hxy : charCmp x y with
      | lt =>
        have hyx : charCmp y x = .gt := by
          rw [charCmp_gt_iff]; exact hxy
        rw [hyx]; simp
      | gt =>
        have hyx : charCmp y x = .lt := charCmp_gt_iff.mp hxy
        rw [hyx]; simp
      | eq =>
        have hyx : charCmp y x = .eq := by
          rw [charCmp_eq_nat_iff] at hxy ⊢; omega
        rw [hyx]
        exact ih

theorem strcmp_self (a : String) : strcmp a a = .eq :=
  strcmpL_self a.data

theorem strcmp_eq_iff {a b : String} : strcmp a b = .eq ↔ a = b := by
  unfold strcmp
  rw [strcmpL_eq_iff]
  constructor
  · intro h; cases a; cases b; exact congrArg String.mk h
  · rintro rfl; rfl

theorem strcmp_lt_trans {a b c : String} :
    strcmp a b = .lt → strcmp b c = .lt → strcmp a c = .lt :=
  strcmpL_lt_trans

theorem strcmp_gt_iff {a b : String} : strcmp a b = .gt ↔ strcmp b a = .lt :=
  strcmpL_gt_iff

theorem strcmp_lt_irrefl {a : String} : strcmp a a ≠ .lt := by
  rw [strcmp_self]; decide

theorem strcmp_lt_ne {a b : String} (h : strcmp a b = .lt) : a ≠ b := by
  rintro rfl
  exact strcmp_lt_irrefl h

theorem str_lower_empty_iff {s : String} : str_lower s = "" ↔ s = "" := by
  cases s with
  | mk data =>
    unfold str_lower
    cases data <;> simp [String.ext_iff]

/-! ## ClueLedger: BST of collected clues (`PistaNode`, lines 18-23) -/

/-- `PistaNode`: node of the BST of collected clues; `nil` is the C `NULL`
pointer. -/
inductive PistaNode where
  | nil : PistaNode
  | node (pista : String) (esq dir : PistaNode) : PistaNode
deriving DecidableEq, Repr

/-- Recursive core of `inserirPista` for a non-`NULL`, non-empty clue:
BST insertion ordered by `strcmp`, returning the tree unchanged when an
equal clue already exists. -/
def inserirPistaGo : PistaNode → String → PistaNode
  | .nil, p => .node p .nil .nil
  | .node q l r, p =>
    match strcmp p q with
    | .eq => .node q l r
    | .lt => .node q (inserirPistaGo l p) r
    | .gt => .node q l (inserirPistaGo r p)

/-- `inserirPista` (lines 113-135): a `NULL` or empty clue leaves the
ledger unchanged; otherwise BST insertion by `strcmp` without
duplicates. -/
def inserirPista (raiz : PistaNode) (pista : Option String) : PistaNode :=
  match pista with
  | none => raiz
  | some p => if p = "" then raiz else inserirPistaGo raiz p

/-- `exibirPistas` (lines 138-143) prints the clues in-order; we model the
emitted sequence. -/
def exibirPistas : PistaNode → List String
  | .nil => []
  | .node p l r => exibirPistas l ++ p :: exibirPistas r

/-- The BST ordering invariant (with respect to `strcmp`) that every
ledger built by `inserirPista` satisfies. -/
def isBST : PistaNode → Prop
  | .nil => True
  | .node p l r =>
    isBST l ∧ isBST r ∧
    (∀ q ∈ exibirPistas l, strcmp q p = .lt) ∧
    (∀ q ∈ exibirPistas r, strcmp p q = .lt)

/-- A ledger built from a list of collected clues, starting from the empty
ledger, exactly as the exploration loop does. -/
def buildLedger (ps : List String) : PistaNode :=
  ps.foldl (fun t p => inserirPista t (some p)) .nil

theorem mem_exibirPistas_inserirPistaGo (t : PistaNode) (p x : String) :
    x ∈ exibirPistas (inserirPistaGo t p) ↔ x = p ∨ x ∈ exibirPistas t := by
  induction t with
  | nil => simp [inserirPistaGo, exibirPistas]
  | node q l r ihl ihr =>
    simp only [inserirPistaGo]
    cases hpq : strcmp p q with
    | eq =>
      have : p = q := strcmp_eq_iff.mp hpq
      subst this
      simp only [exibirPistas, List.mem_append, List.mem_cons]
      constructor
      · intro h; right; exact h
      · rintro (rfl | h)
        · right; left; rfl
        · exact h
    | lt =>
      simp only [exibirPistas, List.mem_append, List.mem_cons, ihl]
      tauto
    | gt =>
      simp only [exibirPistas, List.mem_append, List.mem_cons, ihr]
      tauto

theorem isBST_inserirPistaGo (t : PistaNode) (p : String) (h : isBST t) :
    isBST (inserirPistaGo t p) := by
  induction t with
  | nil => simp [inserirPistaGo, isBST, exibirPistas]
  | node q l r ihl ihr =>
    obtain ⟨hl, hr, hlo, hhi⟩ := h
    simp only [inserirPistaGo]
    cases hpq : strcmp p q with
    | eq => exact ⟨hl, hr, hlo, hhi⟩
    | lt =>
      refine ⟨ihl hl, hr, ?_, hhi⟩
      intro x hx
      rcases (mem_exibirPistas_inserirPistaGo l p x).mp hx with rfl | hx
      · exact hpq
      · exact hlo x hx
    | gt =>
      refine ⟨hl, ihr hr, hlo, ?_⟩
      intro x hx
      rcases (mem_exibirPistas_inserirPistaGo r p x).mp hx with rfl | hx
      · exact strcmp_gt_iff.mp hpq
      · exact hhi x hx

theorem inserirPistaGo_of_mem (t : PistaNode) (p : String) (hbst : isBST t)
    (hmem : p ∈ exibirPistas t) : inserirPistaGo t p = t := by
  induction t with
  | nil => simp [exibirPistas] at hmem
  | node q l r ihl ihr =>
    obtain ⟨hl, hr, hlo, hhi⟩ := hbst
    simp only [exibirPistas, List.mem_append, List.mem_cons] at hmem
    simp only [inserirPistaGo]
    cases hpq : strcmp p q with
    | eq => rfl
    | lt =>
      have hmeml : p ∈ exibirPistas l := by
        rcases hmem with hm | rfl | hm
        · exact hm
        · exact absurd hpq strcmp_lt_irrefl
        · have := hhi p hm
          exact absurd (strcmp_lt_trans hpq this) strcmp_lt_irrefl
      rw [ihl hl hmeml]
    | gt =>
      have hqp : strcmp q p = .lt := strcmp_gt_iff.mp hpq
      have hmemr : p ∈ exibirPistas r := by
        rcases hmem with hm | rfl | hm
        · have := hlo p hm
          exact absurd (strcmp_lt_trans this hqp) strcmp_lt_irrefl
        · exact absurd hqp strcmp_lt_irrefl
        · exact hm
      rw [ihr hr hmemr]

theorem length_exibirPistas_inserirPistaGo (t : PistaNode) (p : String)
    (hmem : p ∉ exibirPistas t) :
    (exibirPistas (inserirPistaGo t p)).length = (exibirPistas t).length + 1 := by
  induction t with
  | nil => simp [inserirPistaGo, exibirPistas]
  | node q l r ihl ihr =>
    simp only [exibirPistas, List.mem_append, List.mem_cons] at hmem
    push_neg at hmem
    obtain ⟨hml, hmq, hmr⟩ := hmem
    simp only [inserirPistaGo]
    cases hpq : strcmp p q with
    | eq => exact absurd (strcmp_eq_iff.mp hpq) hmq
    | lt =>
      simp only [exibirPistas, List.length_append, List.length_cons, ihl hml]
      omega
    | gt =>
      simp only [exibirPistas, List.length_append, List.length_cons, ihr hmr]
      omega

theorem pairwise_exibirPistas (t : PistaNode) (h : isBST t) :
    (exibirPistas t).Pairwise (fun a b => strcmp a b = .lt) := by
  induction t with
  | nil => simp [exibirPistas]
  | node q l r ihl ihr =>
    obtain ⟨hl, hr, hlo, hhi⟩ := h
    simp only [exibirPistas]
    rw [List.pairwise_append]
    refine ⟨ihl hl, ?_, ?_⟩
    · rw [List.pairwise_cons]
      exact ⟨hhi, ihr hr⟩
    · intro a ha b hb
      rcases List.mem_cons.mp hb with rfl | hb
      · exact hlo a ha
      · exact strcmp_lt_trans (hlo a ha) (hhi b hb)

theorem nodup_of_pairwise_lt {l : List String}
    (h : l.Pairwise (fun a b => strcmp a b = .lt)) : l.Nodup :=
  h.imp (fun hab => strcmp_lt_ne hab)

theorem isBST_inserirPista (t : PistaNode) (p : Option String) (h : isBST t) :
    isBST (inserirPista t p) := by
  cases p with
  | none => exact h
  | some q =>
    by_cases hq : q = ""
    · simpa [inserirPista, hq] using h
    · simpa [inserirPista, hq] using isBST_inserirPistaGo t q h

theorem isBST_buildLedger (ps : List String) : isBST (buildLedger ps) := by
  suffices h : ∀ t, isBST t → isBST (ps.foldl (fun t p => inserirPista t (some p)) t) by
    exact h .nil trivial
  induction ps with
  | nil => intro t ht; exact ht
  | cons p ps ih =>
    intro t ht
    exact ih _ (isBST_inserirPista t (some p) ht)

/-! ## LocationTree (`Sala`, lines 11-16, 83-93) -/

/-- `Sala`: a node of the mansion map; `nil` is the C `NULL` pointer.
`pista = none` models a `NULL` clue pointer. -/
inductive SalaTree where
  | nil : SalaTree
  | node (nome : String) (pista : Option String) (esq dir : SalaTree) : SalaTree
deriving DecidableEq, Repr

/-- `criarSala` (lines 83-93): duplicates the name (`NULL` name becomes
the empty string) and stores the clue only when it is non-`NULL` and
non-empty; children start `NULL`. -/
def criarSala (nome : Option String) (pista : Option String) : SalaTree :=
  .node (nome.getD "")
    (match pista with
     | some p => if p = "" then none else some p
     | none => none)
    .nil .nil

/-- `hall->esq = ...; hall->dir = ...`: attaching the two children to an
already created room (the fixed map wiring in `main`, lines 499-504). -/
def withChildren : SalaTree → SalaTree → SalaTree → SalaTree
  | .nil, _, _ => .nil
  | .node n p _ _, l, r => .node n p l r

def SalaTree.nomeDe : SalaTree → String
  | .nil => ""
  | .node n _ _ _ => n

def SalaTree.pistaDe : SalaTree → Option String
  | .nil => none
  | .node _ p _ _ => p

def SalaTree.esqOf : SalaTree → SalaTree
  | .nil => .nil
  | .node _ _ l _ => l

def SalaTree.dirOf : SalaTree → SalaTree
  | .nil => .nil
  | .node _ _ _ r => r

/-- `atual->esq != NULL` / `atual->dir != NULL`. -/
def SalaTree.isNode : SalaTree → Bool
  | .nil => false
  | .node _ _ _ _ => true

/-! ## SuspectIndex: chained hash table (lines 26-36, 159-225) -/

/-- UTF-8 encoding of one code point (the bytes `strcmp` and `hash_djb2`
actually see in the C program). -/
def utf8Enc (c : Char) : List Nat :=
  let n := c.toNat
  if n < 128 then [n]
  else if n < 2048 then [192 + n / 64, 128 + n % 64]
  else if n < 65536 then [224 + n / 4096, 128 + (n / 64) % 64, 128 + n % 64]
  else [240 + n / 262144, 128 + (n / 4096) % 64, 128 + (n / 64) % 64, 128 + n % 64]

/-- The byte sequence of a C string. -/
def strBytes (s : String) : List Nat :=
  (s.data.map utf8Enc).flatten

/-- `hash_djb2` (lines 159-165); `unsigned long` is modelled as a 64-bit
machine word. -/
def hash_djb2 (s : String) : Nat :=
  (strBytes s).foldl (fun h c => (h * 33 + c) % (2 ^ 64)) 5381

/-- One hash bucket: the chained list of (clue, suspect) entries, head
first. -/
abbrev Bucket := List (String × String)

/-- `HashTable` (lines 33-36): the bucket array. -/
structure HashTable where
  buckets : List Bucket
deriving DecidableEq, Repr

/-- `criarHash` (lines 168-178): `tamanho` empty buckets. -/
def criarHash (tamanho : Nat) : HashTable :=
  ⟨List.replicate tamanho []⟩

/-- The chain scan of `inserirNaHash`: does the bucket already hold the
key? -/
def bucketContains (b : Bucket) (pista : String) : Bool :=
  b.any (fun e => e.1 = pista)

/-- Overwrite the suspect of the first entry whose key equals `pista`
(the in-place `free`/`my_strdup` of lines 191-196). -/
def bucketOverwrite : Bucket → String → String → Bucket
  | [], _, _ => []
  | (k, v) :: t, pista, suspeito =>
    if k = pista then (k, suspeito) :: t else (k, v) :: bucketOverwrite t pista suspeito

/-- `inserirNaHash` (lines 185-209): find the bucket by `hash_djb2 %
tamanho`; overwrite an existing key, otherwise prepend a new entry.
(The C `NULL`-argument guard returns the table unchanged; the callers in
scope always pass valid strings.) -/
def inserirNaHash (ht : HashTable) (pista suspeito : String) : HashTable :=
  let i := hash_djb2 pista % ht.buckets.length
  let b := ht.buckets.getD i []
  if bucketContains b pista then
    ⟨ht.buckets.set i (bucketOverwrite b pista suspeito)⟩
  else
    ⟨ht.buckets.set i ((pista, suspeito) :: b)⟩

/-- `encontrarSuspeito` (lines 216-225): scan the key's bucket; `none`
models the `NULL` result. -/
def encontrarSuspeito (ht : HashTable) (pista : String) : Option String :=
  let i := hash_djb2 pista % ht.buckets.length
  ((ht.buckets.getD i []).find? (fun e => e.1 = pista)).map (fun e => e.2)

/-- A sequence of `put` calls, oldest first. -/
def putAll (ht : HashTable) (puts : List (String × String)) : HashTable :=
  puts.foldl (fun h e => inserirNaHash h e.1 e.2) ht

/-- All keys stored in the table, bucket by bucket. -/
def keysOf (ht : HashTable) : List String :=
  (ht.buckets.map (fun b => b.map Prod.fst)).flatten

/-- The value of the last `put` for a key, if any. -/
def lastPut (puts : List (String × String)) (k : String) : Option String :=
  (puts.reverse.find? (fun e => e.1 = k)).map (fun e => e.2)

theorem length_inserirNaHash (ht : HashTable) (p s : String) :
    (inserirNaHash ht p s).buckets.length = ht.buckets.length := by
  simp only [inserirNaHash]
  split <;> simp

theorem getD_set_self {α : Type} (l : List α) (i : Nat) (a d : α) (h : i < l.length) :
    (l.set i a).getD i d = a := by
  rw [List.getD_eq_getElem?_getD, List.getElem?_set_self h]
  rfl

theorem getD_set_ne {α : Type} (l : List α) {i j : Nat} (a d : α) (h : i ≠ j) :
    (l.set i a).getD j d = l.getD j d := by
  rw [List.getD_eq_getElem?_getD, List.getElem?_set_ne h, List.getD_eq_getElem?_getD]

theorem find?_bucketOverwrite_self (b : Bucket) (p s : String)
    (h : bucketContains b p = true) :
    (bucketOverwrite b p s).find? (fun e => e.1 = p) = some (p, s) := by
  induction b with
  | nil => simp [bucketContains] at h
  | cons e t ih =>
    obtain ⟨q, v⟩ := e
    by_cases hq : q = p
    · subst hq
      simp [bucketOverwrite, List.find?]
    · have ht : bucketContains t p = true := by
        simp only [bucketContains, List.any_cons, Bool.or_eq_true] at h
        rcases h with h | h
        · exact absurd (of_decide_eq_true h) hq
        · exact h
      simp [bucketOverwrite, hq, List.find?, ih ht]

theorem find?_bucketOverwrite_ne (b : Bucket) (p s k : String) (hk : k ≠ p) :
    (bucketOverwrite b p s).find? (fun e => e.1 = k) = b.find? (fun e => e.1 = k) := by
  induction b with
  | nil => rfl
  | cons e t ih =>
    obtain ⟨q, v⟩ := e
    by_cases hq : q = p
    · subst hq
      have hqk : ¬(q = k) := fun hc => hk hc.symm
      simp [bucketOverwrite, List.find?, hqk]
    · by_cases hqk : q = k
      · subst hqk
        simp [bucketOverwrite, hq, List.find?]
      · simp [bucketOverwrite, hq, List.find?, hqk, ih]

theorem encontrarSuspeito_inserirNaHash (ht : HashTable) (p s k : String)
    (h : 0 < ht.buckets.length) :
    encontrarSuspeito (inserirNaHash ht p s) k
      = if k = p then some s else encontrarSuspeito ht k := by
  have hip : hash_djb2 p % ht.buckets.length < ht.buckets.length := Nat.mod_lt _ h
  unfold inserirNaHash encontrarSuspeito
  by_cases hcont :
      bucketContains (ht.buckets.getD (hash_djb2 p % ht.buckets.length) []) p = true
  · rw [if_pos hcont]
    dsimp only
    rw [List.length_set]
    by_cases hk : k = p
    · subst hk
      rw [if_pos rfl, getD_set_self _ _ _ _ hip,
        find?_bucketOverwrite_self _ _ _ hcont]
      rfl
    · rw [if_neg hk]
      by_cases hi : hash_djb2 p % ht.buckets.length = hash_djb2 k % ht.buckets.length
      · rw [← hi, getD_set_self _ _ _ _ hip, find?_bucketOverwrite_ne _ _ _ _ hk, hi]
      · rw [getD_set_ne _ _ _ hi]
  · rw [if_neg hcont]
    dsimp only
    rw [List.length_set]
    by_cases hk : k = p
    · subst hk
      rw [if_pos rfl, getD_set_self _ _ _ _ hip]
      simp [List.find?]
    · rw [if_neg hk]
      by_cases hi : hash_djb2 p % ht.buckets.length = hash_djb2 k % ht.buckets.length
      · rw [← hi, getD_set_self _ _ _ _ hip]
        simp only [List.find?]
        have : decide (p = k) = false := by
          simp
          exact fun hc => hk hc.symm
        rw [this]
      · rw [getD_set_ne _ _ _ hi]

theorem encontrarSuspeito_criarHash (n : Nat) (k : String) :
    encontrarSuspeito (criarHash n) k = none := by
  unfold encontrarSuspeito criarHash
  dsimp only
  have hgetD : ∀ i, (List.replicate n ([] : Bucket)).getD i [] = [] := by
    intro i
    rw [List.getD_eq_getElem?_getD]
    cases hidx : (List.replicate n ([] : Bucket))[i]? with
    | none => rfl
    | some b =>
      rw [List.eq_of_mem_replicate (List.getElem?_mem hidx)]
      rfl
  rw [hgetD]
  rfl

theorem encontrarSuspeito_putAll (puts : List (String × String)) :
    ∀ (ht : HashTable) (k : String), 0 < ht.buckets.length →
      encontrarSuspeito (putAll ht puts) k
        = (lastPut puts k).or (encontrarSuspeito ht k) := by
  induction puts with
  | nil =>
    intro ht k h
    simp [putAll, lastPut, Option.none_or]
  | cons e rest ih =>
    intro ht k h
    obtain ⟨p, s⟩ := e
    have h2 : 0 < (inserirNaHash ht p s).buckets.length := by
      rw [length_inserirNaHash]; exact h
    have hput : putAll ht ((p, s) :: rest) = putAll (inserirNaHash ht p s) rest := rfl
    rw [hput, ih _ k h2, encontrarSuspeito_inserirNaHash ht p s k h]
    have hlast : lastPut ((p, s) :: rest) k
        = (lastPut rest k).or (if k = p then some s else none) := by
      unfold lastPut
      rw [List.reverse_cons, List.find?_append]
      cases hfind : rest.reverse.find? (fun e => e.1 = k) with
      | some v => simp [Option.or_some]
      | none =>
        by_cases hk : k = p
        · subst hk
          simp [List.find?]
        · have hpk : ¬((p, s).1 = k) := fun hc => hk hc.symm
          simp [List.find?, hpk, hk]
    rw [hlast]
    cases hl : lastPut rest k with
    | some v => simp [Option.or_some]
    | none =>
      rw [Option.none_or, Option.none_or]
      by_cases hk : k = p <;> simp [hk]

/-- Structural invariant of every table reachable by `put` from
`criarHash`: every entry sits in the bucket its hash selects, and no
bucket holds a key twice. -/
def tableWF (ht : HashTable) : Prop :=
  (∀ i, ∀ e ∈ ht.buckets.getD i [], hash_djb2 e.1 % ht.buckets.length = i) ∧
  (∀ i, ((ht.buckets.getD i []).map Prod.fst).Nodup)

theorem keys_bucketOverwrite (b : Bucket) (p s : String) :
    (bucketOverwrite b p s).map Prod.fst = b.map Prod.fst := by
  induction b with
  | nil => rfl
  | cons e t ih =>
    obtain ⟨q, v⟩ := e
    by_cases hq : q = p <;> simp [bucketOverwrite, hq, ih]

theorem getD_replicate_nil (n i : Nat) :
    (List.replicate n ([] : Bucket)).getD i [] = [] := by
  rw [List.getD_eq_getElem?_getD]
  cases hidx : (List.replicate n ([] : Bucket))[i]? with
  | none => rfl
  | some b =>
    rw [List.eq_of_mem_replicate (List.getElem?_mem hidx)]
    rfl

theorem tableWF_criarHash (n : Nat) : tableWF (criarHash n) := by
  constructor
  · intro i e he
    rw [show (criarHash n).buckets = List.replicate n [] from rfl,
      getD_replicate_nil] at he
    simp at he
  · intro i
    rw [show (criarHash n).buckets = List.replicate n [] from rfl,
      getD_replicate_nil]
    exact List.nodup_nil

theorem tableWF_inserirNaHash (ht : HashTable) (p s : String)
    (h : tableWF ht) (hn : 0 < ht.buckets.length) :
    tableWF (inserirNaHash ht p s) := by
  obtain ⟨hhash, hnodup⟩ := h
  have hip : hash_djb2 p % ht.buckets.length < ht.buckets.length := Nat.mod_lt _ hn
  have hlen : (inserirNaHash ht p s).buckets.length = ht.buckets.length :=
    length_inserirNaHash ht p s
  by_cases hcont :
      bucketContains (ht.buckets.getD (hash_djb2 p % ht.buckets.length) []) p = true
  · have hbuckets : (inserirNaHash ht p s).buckets
        = ht.buckets.set (hash_djb2 p % ht.buckets.length)
            (bucketOverwrite (ht.buckets.getD (hash_djb2 p % ht.buckets.length) []) p s) := by
      simp only [inserirNaHash]
      rw [if_pos hcont]
    constructor
    · intro i e he
      rw [hbuckets] at he
      rw [hbuckets, List.length_set]
      by_cases hi : hash_djb2 p % ht.buckets.length = i
      · subst hi
        rw [getD_set_self _ _ _ _ hip] at he
        have hkey : e.1 ∈ (ht.buckets.getD (hash_djb2 p % ht.buckets.length) []).map Prod.fst := by
          rw [← keys_bucketOverwrite _ p s]
          exact List.mem_map_of_mem Prod.fst he
        obtain ⟨e0, he0, he0k⟩ := List.mem_map.mp hkey
        rw [← he0k]
        exact hhash _ e0 he0
      · rw [getD_set_ne _ _ _ hi] at he
        exact hhash i e he
    · intro i
      rw [hbuckets]
      by_cases hi : hash_djb2 p % ht.buckets.length = i
      · subst hi
        rw [getD_set_self _ _ _ _ hip, keys_bucketOverwrite]
        exact hnodup _
      · rw [getD_set_ne _ _ _ hi]
        exact hnodup i
  · have hbuckets : (inserirNaHash ht p s).buckets
        = ht.buckets.set (hash_djb2 p % ht.buckets.length)
            ((p, s) :: ht.buckets.getD (hash_djb2 p % ht.buckets.length) []) := by
      simp only [inserirNaHash]
      rw [if_neg hcont]
    constructor
    · intro i e he
      rw [hbuckets] at he
      rw [hbuckets, List.length_set]
      by_cases hi : hash_djb2 p % ht.buckets.length = i
      · subst hi
        rw [getD_set_self _ _ _ _ hip] at he
        rcases List.mem_cons.mp he with rfl | he
        · rfl
        · exact hhash _ e he
      · rw [getD_set_ne _ _ _ hi] at he
        exact hhash i e he
    · intro i
      rw [hbuckets]
      by_cases hi : hash_djb2 p % ht.buckets.length = i
      · subst hi
        rw [getD_set_self _ _ _ _ hip]
        rw [List.map_cons, List.nodup_cons]
        refine ⟨?_, hnodup _⟩
        intro hmem
        obtain ⟨e0, he0, he0k⟩ := List.mem_map.mp hmem
        have : bucketContains (ht.buckets.getD (hash_djb2 p % ht.buckets.length) []) p = true := by
          unfold bucketContains
          rw [List.any_eq_true]
          exact ⟨e0, he0, by simp [he0k]⟩
        exact hcont this
      · rw [getD_set_ne _ _ _ hi]
        exact hnodup i

theorem tableWF_putAll (puts : List (String × String)) :
    ∀ ht : HashTable, tableWF ht → 0 < ht.buckets.length → tableWF (putAll ht puts) := by
  induction puts with
  | nil => intro ht h hn; exact h
  | cons e rest ih =>
    intro ht h hn
    have hstep : putAll ht (e :: rest) = putAll (inserirNaHash ht e.1 e.2) rest := rfl
    rw [hstep]
    refine ih _ (tableWF_inserirNaHash ht e.1 e.2 h hn) ?_
    rw [length_inserirNaHash]
    exact hn

theorem nodup_keysOf (ht : HashTable) (h : tableWF ht) : (keysOf ht).Nodup := by
  obtain ⟨hhash, hnodup⟩ := h
  unfold keysOf
  rw [List.nodup_flatten]
  constructor
  · intro l hl
    obtain ⟨b, hb, rfl⟩ := List.mem_map.mp hl
    obtain ⟨i, hi, rfl⟩ := List.mem_iff_getElem.mp hb
    have : ht.buckets.getD i [] = ht.buckets[i] := List.getD_eq_getElem _ _ hi
    rw [← this]
    exact hnodup i
  · rw [List.pairwise_iff_getElem]
    intro i j hi hj hij
    rw [List.length_map] at hi hj
    intro x hxi hxj
    rw [List.getElem_map] at hxi hxj
    have hgi : ht.buckets.getD i [] = ht.buckets[i] := List.getD_eq_getElem _ _ hi
    have hgj : ht.buckets.getD j [] = ht.buckets[j] := List.getD_eq_getElem _ _ hj
    obtain ⟨ei, hei, heik⟩ := List.mem_map.mp hxi
    obtain ⟨ej, hej, hejk⟩ := List.mem_map.mp hxj
    have h1 : hash_djb2 ei.1 % ht.buckets.length = i := hhash i ei (by rw [hgi]; exact hei)
    have h2 : hash_djb2 ej.1 % ht.buckets.length = j := hhash j ej (by rw [hgj]; exact hej)
    rw [heik] at h1
    rw [hejk] at h2
    omega

/-! ## ExplorationSession (`explorarSalas`, lines 294-370) -/

/-- `ler_linha` (lines 60-67): read one line; at end-of-input (`fgets`
returning `NULL`) the buffer becomes the empty string, otherwise a
trailing newline is stripped. -/
def ler_linha (input : Option String) : String :=
  match input with
  | none => ""
  | some line =>
    if line.data.getLast? = some (Char.ofNat 10) then ⟨line.data.dropLast⟩ else line

/-- The first non-whitespace character of the command buffer, lowercased;
the C `escolha` stays NUL when no such character exists (lines 342-345). -/
def primeiroChar (buf : String) : Char :=
  match buf.data.find? (fun c => !(c_isspace c)) with
  | some c => c_tolower c
  | none => Char.ofNat 0

/-- The mutable locals of the exploration loop: current room (`atual`),
visit history (`historico`), and the collected-clue BST. -/
structure ExpState where
  atual : SalaTree
  historico : List String
  pistas : PistaNode
deriving DecidableEq, Repr

/-- The observable outcome of one dispatch of the command read in the
loop (lines 347-359): exit, a move, a rejected move ("Caminho ... não
disponível"), or an invalid command ("Opção inválida"). -/
inductive Sinal where
  | saiu : Sinal
  | moveu : Sinal
  | semCaminho : Sinal
  | invalida : Sinal
deriving DecidableEq, Repr

/-- Loop-top visit registration (lines 306-331): append the room name to
the history and, when the room carries a non-empty clue, insert it into
the clue BST.  (The suspect lookup of lines 323-327 only affects printed
output; `relatorioPista` below models that report.) -/
def visitar (st : ExpState) : ExpState :=
  match st.atual with
  | .nil => st
  | .node nome pista _ _ =>
    { st with
      historico := st.historico ++ [nome]
      pistas :=
        match pista with
        | some p => if p = "" then st.pistas else inserirPista st.pistas (some p)
        | none => st.pistas }

/-- The clue report printed on entering a room (lines 318-331): the clue
found, if any, paired with the suspect the hash binds it to (`none` in
the pair models the "Nenhum suspeito conhecido" message). -/
def relatorioPista (ht : HashTable) (sala : SalaTree) : Option (String × Option String) :=
  match sala.pistaDe with
  | some p => if p = "" then none else some (p, encontrarSuspeito ht p)
  | none => none

/-- Command dispatch (lines 347-359): `s` exits, `e`/`d` move when the
child exists and are rejected otherwise, anything else is invalid. -/
def dispatch (st : ExpState) (buf : String) : ExpState × Sinal :=
  let escolha := primeiroChar buf
  if escolha = 's' then (st, .saiu)
  else if escolha = 'e' then
    if st.atual.esqOf.isNode then ({ st with atual := st.atual.esqOf }, .moveu)
    else (st, .semCaminho)
  else if escolha = 'd' then
    if st.atual.dirOf.isNode then ({ st with atual := st.atual.dirOf }, .moveu)
    else (st, .semCaminho)
  else (st, .invalida)

/-- How the exploration loop ends for a finite input: `exited` via the
`s` command, or `inputExhausted` when the input runs out while the loop
is still going (the C program then re-prompts forever on the empty
buffer end-of-input produces). -/
inductive RunOutcome where
  | exited (st : ExpState) : RunOutcome
  | inputExhausted (st : ExpState) : RunOutcome
deriving DecidableEq, Repr

def RunOutcome.stateOf : RunOutcome → ExpState
  | .exited st => st
  | .inputExhausted st => st

def RunOutcome.isExited : RunOutcome → Bool
  | .exited _ => true
  | .inputExhausted _ => false

/-- The exploration loop (lines 305-360): each iteration registers a
visit at the loop top, then reads and dispatches one command.  `cmds`
holds the lines still on stdin. -/
def explorarRun : ExpState → List String → RunOutcome
  | st, [] => .inputExhausted (visitar st)
  | st, c :: rest =>
    match dispatch (visitar st) c with
    | (st2, .saiu) => .exited st2
    | (st2, .moveu) => explorarRun st2 rest
    | (st2, .semCaminho) => explorarRun st2 rest
    | (st2, .invalida) => explorarRun st2 rest

/-- `explorarSalas` (lines 294-370): a `NULL` map returns at once
("Mapa vazio"), otherwise the loop runs from the root with an empty
history, threading the caller's clue BST. -/
def explorarSalas (inicio : SalaTree) (pistasRoot : PistaNode) (cmds : List String) :
    Option RunOutcome :=
  match inicio with
  | .nil => none
  | _ => some (explorarRun ⟨inicio, [], pistasRoot⟩ cmds)

/-! ## VerdictEngine (lines 377-482) -/

/-- The printed outcome of `verificarSuspeitoFinal`: no clues collected /
empty accusation cancelled / unknown accused ("Acusação improcedente") /
fewer than 2 clues ("inocentado") / CULPADO. -/
inductive Veredito where
  | semPistas : Veredito
  | cancelada : Veredito
  | improcedente : Veredito
  | insuficiente : Veredito
  | culpado : Veredito
deriving DecidableEq, Repr

/-- The in-place increment half of `conta_suspeito_add`: bump the count
of the first node whose name matches exactly. -/
def conta_incr : List (String × Nat) → String → List (String × Nat)
  | [], _ => []
  | (n, c) :: t, nome => if n = nome then (n, c + 1) :: t else (n, c) :: conta_incr t nome

/-- `conta_suspeito_add` (lines 377-390): one scan of the list — if the
(exact) name is found its count is incremented in place, otherwise a new
node with count 1 is pushed at the head.  (The C `NULL`-name guard never
fires: the only caller tests the lookup first.) -/
def conta_suspeito_add (lista : List (String × Nat)) (nome : String) : List (String × Nat) :=
  if lista.any (fun e => e.1 = nome) then conta_incr lista nome else (nome, 1) :: lista

/-- `contar_pistas_por_suspeito` (lines 403-410): in-order walk of the
clue BST; every clue bound in the hash bumps its suspect's tally, unbound
clues are skipped. -/
def contar_pistas_por_suspeito : PistaNode → HashTable → List (String × Nat) → List (String × Nat)
  | .nil, _, lista => lista
  | .node p l r, ht, lista =>
    let lista1 := contar_pistas_por_suspeito l ht lista
    let lista2 :=
      match encontrarSuspeito ht p with
      | some sus => conta_suspeito_add lista1 sus
      | none => lista1
    contar_pistas_por_suspeito r ht lista2

/-- The count the tally records for a suspect (0 when absent): the first
entry found by the same scan order the C list search uses. -/
def lookupCont (lista : List (String × Nat)) (s : String) : Nat :=
  ((lista.find? (fun e => e.1 = s)).map (fun e => e.2)).getD 0

/-- `verificarSuspeitoFinal` (lines 417-482).  `entrada` is the line
`ler_linha` returns at the accusation prompt.  An empty (`NULL`) ledger
short-circuits; the tally is built before the accusation is read; an
empty line cancels; otherwise the accused and each tallied name are
compared after `str_lower` normalization, the first match supplying the
count judged against the fixed threshold 2.  (The two 127-byte `strncpy`
truncations are not modelled; no name in scope is that long.) -/
def verificarSuspeitoFinal (pistasRoot : PistaNode) (ht : HashTable) (entrada : String) :
    Veredito :=
  match pistasRoot with
  | .nil => .semPistas
  | .node _ _ _ =>
    let lista := contar_pistas_por_suspeito pistasRoot ht []
    if entrada = "" then .cancelada
    else
      let acusadoNorm := str_lower entrada
      match lista.find? (fun e => str_lower e.1 = acusadoNorm) with
      | none => .improcedente
      | some e => if 2 ≤ e.2 then .culpado else .insuficiente

/-! ## The fixed reference map and bindings of `main` (lines 488-526) -/

/-- The seven-room mansion wired in `main` (lines 490-504). -/
def mapaRef : SalaTree :=
  withChildren (criarSala (some "Hall de Entrada") (some "Pegadas de lama"))
    (withChildren (criarSala (some "Sala de Estar") (some "Livro com página faltando"))
      (criarSala (some "Cozinha") (some "Chave perdida"))
      (criarSala (some "Biblioteca") none))
    (withChildren (criarSala (some "Corredor") none)
      (criarSala (some "Quarto") (some "Lençol manchado"))
      (criarSala (some "Jardim") (some "Gaveta perdida")))

/-- The five clue-to-suspect bindings inserted in `main`
(lines 507-514) into a 31-bucket table. -/
def htRef : HashTable :=
  putAll (criarHash 31)
    [("Pegadas de lama", "Jardineiro"),
     ("Gaveta perdida", "Jardineiro"),
     ("Chave perdida", "Empregado"),
     ("Lençol manchado", "Empregado"),
     ("Livro com página faltando", "Bibliotecário")]

/-! ## Tally lemmas -/

theorem lookupCont_nil (s : String) : lookupCont [] s = 0 := rfl

theorem lookupCont_conta_incr (lista : List (String × Nat)) (nome s : String)
    (hany : lista.any (fun e => e.1 = nome) = true) :
    lookupCont (conta_incr lista nome) s
      = lookupCont lista s + (if nome = s then 1 else 0) := by
  induction lista with
  | nil => simp at hany
  | cons e t ih =>
    obtain ⟨n, c⟩ := e
    by_cases hn : n = nome
    · subst hn
      by_cases hs : n = s
      · subst hs
        simp [conta_incr, lookupCont, List.find?]
      · have hns : ¬((n, c).1 = s) := hs
        have hns2 : ¬((n, c + 1).1 = s) := hs
        simp [conta_incr, lookupCont, List.find?, hns, hns2, hs]
    · have ht : t.any (fun e => e.1 = nome) = true := by
        simp only [List.any_cons, Bool.or_eq_true] at hany
        rcases hany with h | h
        · exact absurd (of_decide_eq_true h) hn
        · exact h
      by_cases hs : n = s
      · subst hs
        simp [conta_incr, lookupCont, List.find?, hn]
        intro hcontra
        exact absurd hcontra.symm hn
      · simp only [conta_incr, if_neg hn]
        have hns : ((n, c).1 = s) = False := by simp [hs]
        simp only [lookupCont, List.find?, hns, decide_False] at ih ⊢
        exact ih ht

theorem lookupCont_conta_suspeito_add (lista : List (String × Nat)) (nome s : String) :
    lookupCont (conta_suspeito_add lista nome) s
      = lookupCont lista s + (if nome = s then 1 else 0) := by
  unfold conta_suspeito_add
  by_cases hany : lista.any (fun e => e.1 = nome) = true
  · rw [if_pos hany]
    exact lookupCont_conta_incr lista nome s hany
  · rw [if_neg hany]
    have hnone : lista.find? (fun e => e.1 = nome) = none := by
      rw [List.find?_eq_none]
      intro e he
      simp only [decide_eq_true_eq]
      intro hc
      apply hany
      rw [List.any_eq_true]
      exact ⟨e, he, by simp [hc]⟩
    by_cases hs : nome = s
    · subst hs
      simp [lookupCont, List.find?, hnone]
    · have hns : ((nome, 1).1 = s) = False := by simp [hs]
      simp [lookupCont, List.find?, hns, hs]

theorem lookupCont_contar (t : PistaNode) (ht : HashTable) :
    ∀ (lista : List (String × Nat)) (s : String),
      lookupCont (contar_pistas_por_suspeito t ht lista) s
        = lookupCont lista s
          + (exibirPistas t).countP (fun p => encontrarSuspeito ht p = some s) := by
  induction t with
  | nil => intro lista s; simp [contar_pistas_por_suspeito, exibirPistas]
  | node p l r ihl ihr =>
    intro lista s
    simp only [contar_pistas_por_suspeito, exibirPistas]
    rw [ihr, List.countP_append, List.countP_cons]
    cases hsus : encontrarSuspeito ht p with
    | some sus =>
      rw [lookupCont_conta_suspeito_add, ihl]
      by_cases h : sus = s <;> simp [h] <;> omega
    | none =>
      rw [ihl]
      simp
      omega

/-! ## Exploration step lemmas -/

theorem visitar_atual (st : ExpState) : (visitar st).atual = st.atual := by
  obtain ⟨a, hh, pp⟩ := st
  cases a <;> rfl

theorem visitar_historico (st : ExpState) (nome : String) (pista : Option String)
    (esq dir : SalaTree) (h : st.atual = .node nome pista esq dir) :
    (visitar st).historico = st.historico ++ [nome] := by
  obtain ⟨a, hh, pp⟩ := st
  dsimp only at h
  subst h
  rfl

theorem dispatch_e_semCaminho (st : ExpState) (buf : String)
    (hbuf : primeiroChar buf = 'e') (hesq : st.atual.esqOf = .nil) :
    dispatch st buf = (st, Sinal.semCaminho) := by
  unfold dispatch
  rw [hbuf, hesq]
  rw [if_neg (by decide), if_pos rfl]
  rfl

theorem dispatch_d_semCaminho (st : ExpState) (buf : String)
    (hbuf : primeiroChar buf = 'd') (hdir : st.atual.dirOf = .nil) :
    dispatch st buf = (st, Sinal.semCaminho) := by
  unfold dispatch
  rw [hbuf, hdir]
  rw [if_neg (by decide), if_neg (by decide), if_pos rfl]
  rfl

theorem explorarRun_cons_semCaminho (st : ExpState) (buf : String) (rest : List String)
    (h : dispatch (visitar st) buf = (visitar st, Sinal.semCaminho)) :
    explorarRun st (buf :: rest) = explorarRun (visitar st) rest := by
  simp only [explorarRun]
  rw [h]

/-! ## Claims -/

/-- C2 (counterexample): on a one-room map, issuing `left` (no left child
exists) and then `exit` produces a VisitLog with the room recorded twice
— the rejected move's re-prompt appends a new entry, contradicting the
claim that the VisitLog is left unchanged. -/
theorem C2_counterexample :
    explorarRun ⟨criarSala (some "Quarto") none, [], .nil⟩ ["e", "s"]
      = RunOutcome.exited ⟨criarSala (some "Quarto") none, ["Quarto", "Quarto"], .nil⟩
    ∧ (["Quarto", "Quarto"] : List String) ≠ ["Quarto"] := by
  exact ⟨rfl, by decide⟩

/-- C2 (amended): dispatching `left` at a location with no left child
leaves the state (cursor, VisitLog, ledger) unchanged and emits the
invalid-move signal, and symmetrically for `right`; but the loop then
re-enters the same location, so the re-prompt iteration appends the
location's name to the VisitLog again (the run on the rejected command
equals the run on the remaining commands from the once-visited state,
whose next iteration visits the same location a second time). -/
theorem C2_invalid_move (nome : String) (pista : Option String)
    (esq dir : SalaTree) (hist : List String) (pistas : PistaNode)
    (buf : String) (rest : List String) :
    (primeiroChar buf = 'e' →
        dispatch ⟨SalaTree.node nome pista .nil dir, hist, pistas⟩ buf
          = (⟨SalaTree.node nome pista .nil dir, hist, pistas⟩, Sinal.semCaminho)
        ∧ explorarRun ⟨SalaTree.node nome pista .nil dir, hist, pistas⟩ (buf :: rest)
          = explorarRun (visitar ⟨SalaTree.node nome pista .nil dir, hist, pistas⟩) rest)
    ∧ (primeiroChar buf = 'd' →
        dispatch ⟨SalaTree.node nome pista esq .nil, hist, pistas⟩ buf
          = (⟨SalaTree.node nome pista esq .nil, hist, pistas⟩, Sinal.semCaminho)
        ∧ explorarRun ⟨SalaTree.node nome pista esq .nil, hist, pistas⟩ (buf :: rest)
          = explorarRun (visitar ⟨SalaTree.node nome pista esq .nil, hist, pistas⟩) rest)
    ∧ (visitar (visitar ⟨SalaTree.node nome pista esq dir, hist, pistas⟩)).historico
        = hist ++ [nome, nome] := by
  refine ⟨?_, ?_, ?_⟩
  · intro hbuf
    refine ⟨dispatch_e_semCaminho _ buf hbuf rfl, ?_⟩
    refine explorarRun_cons_semCaminho _ buf rest ?_
    exact dispatch_e_semCaminho _ buf hbuf (by rw [visitar_atual]; rfl)
  · intro hbuf
    refine ⟨dispatch_d_semCaminho _ buf hbuf rfl, ?_⟩
    refine explorarRun_cons_semCaminho _ buf rest ?_
    exact dispatch_d_semCaminho _ buf hbuf (by rw [visitar_atual]; rfl)
  · rw [visitar_historico _ nome pista esq dir (by rw [visitar_atual]),
      visitar_historico _ nome pista esq dir rfl]
    simp

/-- C2 (witness): the amended statement at the single leaf room
"Quarto" with the `e` command. -/
theorem C2_witness :
    dispatch ⟨SalaTree.node "Quarto" none .nil .nil, ["Quarto"], PistaNode.nil⟩ "e"
      = (⟨SalaTree.node "Quarto" none .nil .nil, ["Quarto"], PistaNode.nil⟩, Sinal.semCaminho)
    ∧ (visitar (visitar ⟨SalaTree.node "Quarto" none .nil .nil, [], PistaNode.nil⟩)).historico
      = ["Quarto", "Quarto"] := by
  refine ⟨((C2_invalid_move "Quarto" none .nil .nil ["Quarto"] PistaNode.nil "e" []).1
      (by decide)).1, ?_⟩
  have h := (C2_invalid_move "Quarto" none .nil .nil [] PistaNode.nil "e" []).2.2
  simpa using h

/-- C7 (counterexample): at end-of-input on a one-room map the session
does not exit: the run outcome is not `Exited`, and the empty buffer
end-of-input produces dispatches as an invalid command (state unchanged,
`invalida` signal), which is not the exit signal. -/
theorem C7_counterexample :
    (explorarRun ⟨criarSala (some "Quarto") none, [], .nil⟩ []).isExited = false
    ∧ dispatch ⟨criarSala (some "Quarto") none, ["Quarto"], .nil⟩ (ler_linha none)
        = (⟨criarSala (some "Quarto") none, ["Quarto"], .nil⟩, Sinal.invalida)
    ∧ Sinal.invalida ≠ Sinal.saiu := by
  refine ⟨rfl, ?_, by decide⟩
  unfold dispatch
  rw [show primeiroChar (ler_linha none) = Char.ofNat 0 from rfl]
  rw [if_neg (by decide), if_neg (by decide), if_neg (by decide)]

/-- C7 (amended): an end-of-input read yields the empty command buffer,
whose dispatch leaves every exploration state unchanged and signals an
invalid command — the C loop thus re-prompts (forever, at persistent
end-of-input) instead of treating it as `exit`; a run whose input is
exhausted ends `inputExhausted`, never `Exited`. -/
theorem C7_eof_is_invalid_command (st : ExpState) :
    ler_linha none = ""
    ∧ dispatch st (ler_linha none) = (st, Sinal.invalida)
    ∧ explorarRun st [] = RunOutcome.inputExhausted (visitar st) := by
  refine ⟨rfl, ?_, rfl⟩
  unfold dispatch
  rw [show primeiroChar (ler_linha none) = Char.ofNat 0 from rfl]
  rw [if_neg (by decide), if_neg (by decide), if_neg (by decide)]

/-- C8: an empty (`NULL`) clue ledger makes `verificarSuspeitoFinal`
return the distinguished no-evidence result immediately, for every hash
table and every accusation line — in particular independently of the
tally (never computed) and of the accusation (never read). -/
theorem C8_no_evidence_short_circuit (ht : HashTable) (entrada : String) :
    verificarSuspeitoFinal .nil ht entrada = Veredito.semPistas := rfl

/-- C9: an empty clue is no clue throughout: `criarSala` stores no clue
for a `NULL` or empty clue argument; visiting such a room reports no clue
and leaves the ledger untouched (only the visit is logged); and
`inserirPista` returns any ledger unchanged on a `NULL` or empty clue. -/
theorem C9_empty_clue (nome : Option String) (ht : HashTable)
    (hist : List String) (pis t : PistaNode) :
    (criarSala nome none).pistaDe = none
    ∧ (criarSala nome (some "")).pistaDe = none
    ∧ relatorioPista ht (criarSala nome none) = none
    ∧ relatorioPista ht (criarSala nome (some "")) = none
    ∧ visitar ⟨criarSala nome none, hist, pis⟩
        = ⟨criarSala nome none, hist ++ [nome.getD ""], pis⟩
    ∧ visitar ⟨criarSala nome (some ""), hist, pis⟩
        = ⟨criarSala nome (some ""), hist ++ [nome.getD ""], pis⟩
    ∧ inserirPista t none = t
    ∧ inserirPista t (some "") = t := by
  exact ⟨rfl, rfl, rfl, rfl, rfl, rfl, rfl, rfl⟩

/-- C1 (counterexample): after the reference run `right, left, exit`
(commands `d`, `e`, `s`) the collected ledger holds "Pegadas de lama"
(Muddy footprints), which the index binds to "Jardineiro" (Gardener), so
accusing "Jardineiro" is judged `insuficiente` (InsufficientEvidence,
1 matched clue) — not `improcedente` (Unsupported) as the claim states. -/
theorem C1_counterexample :
    verificarSuspeitoFinal
        (explorarRun ⟨mapaRef, [], .nil⟩ ["d", "e", "s"]).stateOf.pistas htRef "Jardineiro"
      = Veredito.insuficiente
    ∧ Veredito.insuficiente ≠ Veredito.improcedente := by
  exact ⟨rfl, by decide⟩

/-- C1 (amended): the reference run `right, left, exit` exits with
VisitLog = [Hall de Entrada, Corredor, Quarto] (Hall, Corridor, Bedroom)
and ledger exactly {Lençol manchado, Pegadas de lama} (Stained sheet,
Muddy footprints); accusing "Empregado" (Butler) yields
InsufficientEvidence (1 matching clue), and accusing "Jardineiro"
(Gardener) also yields InsufficientEvidence (1 matching clue, Muddy
footprints), not Unsupported. -/
theorem C1_end_to_end :
    (explorarRun ⟨mapaRef, [], .nil⟩ ["d", "e", "s"]).isExited = true
    ∧ (explorarRun ⟨mapaRef, [], .nil⟩ ["d", "e", "s"]).stateOf.historico
        = ["Hall de Entrada", "Corredor", "Quarto"]
    ∧ exibirPistas (explorarRun ⟨mapaRef, [], .nil⟩ ["d", "e", "s"]).stateOf.pistas
        = ["Lençol manchado", "Pegadas de lama"]
    ∧ lookupCont (contar_pistas_por_suspeito
        (explorarRun ⟨mapaRef, [], .nil⟩ ["d", "e", "s"]).stateOf.pistas htRef [])
        "Empregado" = 1
    ∧ lookupCont (contar_pistas_por_suspeito
        (explorarRun ⟨mapaRef, [], .nil⟩ ["d", "e", "s"]).stateOf.pistas htRef [])
        "Jardineiro" = 1
    ∧ verificarSuspeitoFinal
        (explorarRun ⟨mapaRef, [], .nil⟩ ["d", "e", "s"]).stateOf.pistas htRef "Empregado"
      = Veredito.insuficiente
    ∧ verificarSuspeitoFinal
        (explorarRun ⟨mapaRef, [], .nil⟩ ["d", "e", "s"]).stateOf.pistas htRef "Jardineiro"
      = Veredito.insuficiente := by
  exact ⟨rfl, rfl, rfl, rfl, rfl, rfl, rfl⟩

/-- C3: for a non-empty ledger and non-empty accusation line, the verdict
is decided by the first tally entry whose `str_lower`-folded name equals
the folded accusation: no match → `improcedente` (Unsupported); a match
with count at least 2 → `culpado` (Guilty), otherwise `insuficiente`
(InsufficientEvidence); and the verdict depends on the accusation only
through its case-folding. -/
theorem C3_judge (p : PistaNode) (ht : HashTable) (acc : String)
    (hp : p ≠ PistaNode.nil) (hacc : acc ≠ "") :
    ((contar_pistas_por_suspeito p ht []).find?
        (fun e => str_lower e.1 = str_lower acc) = none →
      verificarSuspeitoFinal p ht acc = Veredito.improcedente)
    ∧ (∀ nome cont,
        (contar_pistas_por_suspeito p ht []).find?
            (fun e => str_lower e.1 = str_lower acc) = some (nome, cont) →
        verificarSuspeitoFinal p ht acc
          = if 2 ≤ cont then Veredito.culpado else Veredito.insuficiente)
    ∧ (∀ acc2, str_lower acc2 = str_lower acc →
        verificarSuspeitoFinal p ht acc2 = verificarSuspeitoFinal p ht acc) := by
  cases p with
  | nil => exact absurd rfl hp
  | node q l r =>
    refine ⟨?_, ?_, ?_⟩
    · intro hfind
      simp only [verificarSuspeitoFinal]
      rw [if_neg hacc, hfind]
    · intro nome cont hfind
      simp only [verificarSuspeitoFinal]
      rw [if_neg hacc, hfind]
    · intro acc2 hacc2
      have hacc2ne : acc2 ≠ "" := by
        intro hc
        subst hc
        rw [show str_lower "" = "" from rfl] at hacc2
        exact hacc (str_lower_empty_iff.mp hacc2.symm)
      simp only [verificarSuspeitoFinal]
      rw [if_neg hacc2ne, if_neg hacc, hacc2]

/-- C3 (witness): with the one-clue ledger {Pegadas de lama} and the
reference bindings, the tally is [(Jardineiro, 1)]; the uppercase
accusation "JARDINEIRO" matches it after folding and is judged
insufficient (count 1 < 2), and the lowercase accusation "jardineiro"
receives the same verdict. -/
theorem C3_witness :
    verificarSuspeitoFinal (buildLedger ["Pegadas de lama"]) htRef "JARDINEIRO"
      = Veredito.insuficiente
    ∧ verificarSuspeitoFinal (buildLedger ["Pegadas de lama"]) htRef "jardineiro"
      = Veredito.insuficiente := by
  have h := C3_judge (buildLedger ["Pegadas de lama"]) htRef "JARDINEIRO"
    (by decide) (by decide)
  have hfind : (contar_pistas_por_suspeito (buildLedger ["Pegadas de lama"]) htRef []).find?
      (fun e => str_lower e.1 = str_lower "JARDINEIRO") = some ("Jardineiro", 1) := rfl
  have h2 := h.2.1 "Jardineiro" 1 hfind
  have h3 := h.2.2 "jardineiro" rfl
  refine ⟨?_, ?_⟩
  · rw [h2]; decide
  · rw [h3, h2]; decide

/-- C4: the tally assigns to each suspect exactly the number of ledgered
clues the index binds to that suspect (clues unbound in the index
contribute nothing and cause no error); the count depends only on the
collection of ledgered clues, not on traversal order (permutation
invariance); and for the concrete ledger {A, B, C} with A, B bound to
suspect X and C unbound the tally is exactly [(X, 2)]. -/
theorem C4_tally (t u : PistaNode) (ht : HashTable) (s : String) :
    lookupCont (contar_pistas_por_suspeito t ht []) s
      = (exibirPistas t).countP (fun p => encontrarSuspeito ht p = some s)
    ∧ ((exibirPistas t).Perm (exibirPistas u) →
        lookupCont (contar_pistas_por_suspeito t ht []) s
          = lookupCont (contar_pistas_por_suspeito u ht []) s)
    ∧ contar_pistas_por_suspeito (buildLedger ["A", "B", "C"])
        (putAll (criarHash 31) [("A", "X"), ("B", "X")]) [] = [("X", 2)] := by
  refine ⟨?_, ?_, rfl⟩
  · rw [lookupCont_contar]
    simp [lookupCont_nil]
  · intro hperm
    rw [lookupCont_contar, lookupCont_contar]
    rw [hperm.countP_eq]

/-- C4 (witness): the permutation-invariance part at the two-clue ledgers
built in the orders [A, B] and [B, A]. -/
theorem C4_witness :
    lookupCont (contar_pistas_por_suspeito (buildLedger ["A", "B"])
        (putAll (criarHash 31) [("A", "X"), ("B", "X")]) []) "X"
      = lookupCont (contar_pistas_por_suspeito (buildLedger ["B", "A"])
        (putAll (criarHash 31) [("A", "X"), ("B", "X")]) []) "X" := by
  exact (C4_tally (buildLedger ["A", "B"]) (buildLedger ["B", "A"])
    (putAll (criarHash 31) [("A", "X"), ("B", "X")]) "X").2.1 (by decide)

/-- C5: on any ledger built by insertion (the only ledgers the program
creates): inserting a clue already present returns the ledger unchanged
— presence decided by exact string comparison, no case-folding; inserting
an absent non-empty clue grows the in-order enumeration by exactly that
clue while keeping it strictly `strcmp`-increasing; and the enumeration
is always strictly increasing, hence duplicate-free (one entry per
distinct clue). -/
theorem C5_ledger (ps : List String) (p : String) :
    (p ∈ exibirPistas (buildLedger ps) →
        inserirPista (buildLedger ps) (some p) = buildLedger ps)
    ∧ (p ∉ exibirPistas (buildLedger ps) → p ≠ "" →
        ((exibirPistas (inserirPista (buildLedger ps) (some p))).length
            = (exibirPistas (buildLedger ps)).length + 1
          ∧ p ∈ exibirPistas (inserirPista (buildLedger ps) (some p))
          ∧ (exibirPistas (inserirPista (buildLedger ps) (some p))).Pairwise
              (fun a b => strcmp a b = .lt)))
    ∧ (exibirPistas (buildLedger ps)).Pairwise (fun a b => strcmp a b = .lt)
    ∧ (exibirPistas (buildLedger ps)).Nodup := by
  have hbst := isBST_buildLedger ps
  refine ⟨?_, ?_, pairwise_exibirPistas _ hbst,
    nodup_of_pairwise_lt (pairwise_exibirPistas _ hbst)⟩
  · intro hmem
    by_cases hp : p = ""
    · simp [inserirPista, hp]
    · simp only [inserirPista, if_neg hp]
      exact inserirPistaGo_of_mem _ p hbst hmem
  · intro hmem hne
    simp only [inserirPista, if_neg hne]
    exact ⟨length_exibirPistas_inserirPistaGo _ p hmem,
      (mem_exibirPistas_inserirPistaGo _ p p).mpr (Or.inl rfl),
      pairwise_exibirPistas _ (isBST_inserirPistaGo _ p hbst)⟩

/-- C5 (witness): re-inserting "A" into the ledger built from [B, A]
leaves it unchanged; inserting the lowercase "a" (byte-wise distinct)
grows it; and the enumeration is duplicate-free. -/
theorem C5_witness :
    inserirPista (buildLedger ["B", "A"]) (some "A") = buildLedger ["B", "A"]
    ∧ (exibirPistas (inserirPista (buildLedger ["B", "A"]) (some "a"))).length
        = (exibirPistas (buildLedger ["B", "A"])).length + 1
    ∧ (exibirPistas (buildLedger ["B", "A"])).Nodup := by
  refine ⟨(C5_ledger ["B", "A"] "A").1 (by decide),
    ((C5_ledger ["B", "A"] "a").2.1 (by decide) (by decide)).1,
    (C5_ledger ["B", "A"] "A").2.2.2⟩

/-- C6: starting from a table with at least one bucket (the program uses
31), after any sequence of `put` calls `get` returns the value of the
last `put` for each key (`none` for a never-put key — overwrites create
no second binding, new keys create one), and the stored keys are pairwise
distinct. -/
theorem C6_last_put_wins (n : Nat) (hn : 0 < n)
    (puts : List (String × String)) (k : String) :
    encontrarSuspeito (putAll (criarHash n) puts) k = lastPut puts k
    ∧ (keysOf (putAll (criarHash n) puts)).Nodup := by
  have hlen : 0 < (criarHash n).buckets.length := by
    simpa [criarHash] using hn
  constructor
  · rw [encontrarSuspeito_putAll puts (criarHash n) k hlen, encontrarSuspeito_criarHash]
    cases lastPut puts k <;> rfl
  · exact nodup_keysOf _ (tableWF_putAll puts (criarHash n) (tableWF_criarHash n) hlen)

/-- C6 (witness): on a 31-bucket table, putting a → X, b → Y, a → Z makes
`get a` return Z (the last put for a), and the key set stays
duplicate-free. -/
theorem C6_witness :
    encontrarSuspeito (putAll (criarHash 31) [("a", "X"), ("b", "Y"), ("a", "Z")]) "a"
      = some "Z"
    ∧ (keysOf (putAll (criarHash 31) [("a", "X"), ("b", "Y"), ("a", "Z")])).Nodup := by
  have h := C6_last_put_wins 31 (by decide) [("a", "X"), ("b", "Y"), ("a", "Z")] "a"
  refine ⟨?_, h.2⟩
  rw [h.1]
  rfl

/-- C10: the tally keys suspects by exact, case-sensitive name — a new
entry is prepended whenever no entry matches exactly, even when an entry
differs only in letter case — while the verdict search folds case and
stops at the first folded match: with clues c1 → "Empregado" and
c2 → "empregado" both ledgered, the tally holds the two one-count entries
separately, and accusing "empregado" is judged on the first match's count
1 (insufficient), not on the case-folded sum 2, which would convict. -/
theorem C10_case_sensitive_tally (l : List (String × Nat)) (nome : String)
    (h : ∀ e ∈ l, e.1 ≠ nome) :
    conta_suspeito_add l nome = (nome, 1) :: l
    ∧ contar_pistas_por_suspeito (buildLedger ["c1", "c2"])
        (putAll (criarHash 31) [("c1", "Empregado"), ("c2", "empregado")]) []
      = [("empregado", 1), ("Empregado", 1)]
    ∧ verificarSuspeitoFinal (buildLedger ["c1", "c2"])
        (putAll (criarHash 31) [("c1", "Empregado"), ("c2", "empregado")]) "empregado"
      = Veredito.insuficiente
    ∧ Veredito.insuficiente ≠ Veredito.culpado := by
  refine ⟨?_, rfl, rfl, by decide⟩
  unfold conta_suspeito_add
  have hany : l.any (fun e => e.1 = nome) = false := by
    rw [List.any_eq_false]
    intro e he
    simpa using h e he
  rw [hany]
  rfl

/-- C10 (witness): adding "empregado" to the tally [("Empregado", 1)]
creates a separate entry instead of merging with the case-variant. -/
theorem C10_witness :
    conta_suspeito_add [("Empregado", 1)] "empregado"
      = [("empregado", 1), ("Empregado", 1)] :=
  (C10_case_sensitive_tally [("Empregado", 1)] "empregado" (by decide)).1

end DetectiveQuest
